import Mathlib

/-!
Verification of the NovaNews response normalizer and refresh scheduler.

JavaScript strings are modelled as `List Char` (all inputs of interest are
plain text; UTF-16 details are irrelevant to the claims).  `JSON.parse` is
modelled as a total function returning `Option JsonVal`: `none` models a
thrown `SyntaxError` (every call site in the source wraps `JSON.parse` in
`try/catch`).  Numbers are kept as their source lexeme, since no claim
depends on numeric values, only on JSON structure and truthiness.
-/

/-- A JavaScript string, modelled as a list of characters. -/
abbrev Str := List Char

/-- Convert a Lean string literal to the JavaScript string model. -/
def chars (s : String) : Str := s.data

/-- The backtick character (used by the markdown-fence stripping code). -/
def tick : Char := Char.ofNat 96

/-- The double-quote character. -/
def dq : Char := Char.ofNat 34

/-- The backslash character. -/
def bsl : Char := Char.ofNat 92

/-- Whitespace class shared by JS `String.prototype.trim` and regex `\s`
(restricted to the ASCII whitespace characters, which covers every input
the claims mention). -/
def isWs (c : Char) : Bool :=
  c = ' ' || c = Char.ofNat 9 || c = Char.ofNat 10 || c = Char.ofNat 13 ||
  c = Char.ofNat 11 || c = Char.ofNat 12

/-- Whitespace accepted by the JSON grammar (`JSON.parse`): space, tab,
line feed, carriage return. -/
def isJsonWs (c : Char) : Bool :=
  c = ' ' || c = Char.ofNat 9 || c = Char.ofNat 10 || c = Char.ofNat 13

/-- Remove trailing whitespace (structural formulation, no `reverse`). -/
def trimRight : Str → Str
  | [] => []
  | c :: r =>
    match trimRight r with
    | [] => if isWs c then [] else [c]
    | r' => c :: r'

/-- Model of JS `String.prototype.trim`. -/
def trimWs (s : Str) : Str := trimRight (s.dropWhile isWs)

/-- A parsed JSON value (result of `JSON.parse`).  Object fields keep
source order; duplicate keys are resolved by `objGet` taking the last
binding, as `JSON.parse` does. -/
inductive JsonVal where
  | null : JsonVal
  | bool : Bool → JsonVal
  | num : Str → JsonVal
  | str : Str → JsonVal
  | arr : List JsonVal → JsonVal
  | obj : List (Str × JsonVal) → JsonVal

/-- Value of a hexadecimal digit, if any. -/
def hexVal (c : Char) : Option Nat :=
  if '0' ≤ c ∧ c ≤ '9' then some (c.toNat - '0'.toNat)
  else if 'a' ≤ c ∧ c ≤ 'f' then some (c.toNat - 'a'.toNat + 10)
  else if 'A' ≤ c ∧ c ≤ 'F' then some (c.toNat - 'A'.toNat + 10)
  else none

/-- Decode the body of a JSON string literal (after the opening quote):
returns the decoded characters and the remainder after the closing quote.
`none` models a `SyntaxError` (unterminated string, bad escape, raw
control character). -/
def parseStringRest : Str → Option (Str × Str)
  | [] => none
  | c :: r =>
    if c = dq then some ([], r)
    else if c = bsl then
      match r with
      | [] => none
      | e :: r2 =>
        if e = dq then (parseStringRest r2).map (fun p => (dq :: p.1, p.2))
        else if e = bsl then (parseStringRest r2).map (fun p => (bsl :: p.1, p.2))
        else if e = '/' then (parseStringRest r2).map (fun p => ('/' :: p.1, p.2))
        else if e = 'b' then (parseStringRest r2).map (fun p => (Char.ofNat 8 :: p.1, p.2))
        else if e = 'f' then (parseStringRest r2).map (fun p => (Char.ofNat 12 :: p.1, p.2))
        else if e = 'n' then (parseStringRest r2).map (fun p => (Char.ofNat 10 :: p.1, p.2))
        else if e = 'r' then (parseStringRest r2).map (fun p => (Char.ofNat 13 :: p.1, p.2))
        else if e = 't' then (parseStringRest r2).map (fun p => (Char.ofNat 9 :: p.1, p.2))
        else if e = 'u' then
          match r2 with
          | h1 :: h2 :: h3 :: h4 :: r3 =>
            match hexVal h1, hexVal h2, hexVal h3, hexVal h4 with
            | some a, some b, some c2, some d =>
              (parseStringRest r3).map
                (fun p => (Char.ofNat (a * 4096 + b * 256 + c2 * 16 + d) :: p.1, p.2))
            | _, _, _, _ => none
          | _ => none
        else none
    else if c.toNat < 32 then none
    else (parseStringRest r).map (fun p => (c :: p.1, p.2))

/-- Digit predicate for the JSON number grammar. -/
def isDig (c : Char) : Bool := '0' ≤ c && c ≤ '9'

/-- Lex a JSON number token per the RFC 8259 grammar, returning the lexeme
and the rest.  `none` models a `SyntaxError`. -/
def lexNumber (s : Str) : Option (Str × Str) :=
  let (neg, s1) :=
    match s with
    | c :: r => if c = '-' then (['-'], r) else (([] : Str), s)
    | [] => ([], s)
  match s1 with
  | [] => none
  | c :: r =>
    if ¬ isDig c then none
    else
      let (intPart, s2) :=
        if c = '0' then (['0'], r)
        else
          let (ds, rest) := s1.span isDig
          (ds, rest)
      let fracRes : Option (Str × Str) :=
        match s2 with
        | '.' :: r2 =>
          let (ds, rest) := r2.span isDig
          if ds = [] then none else some ('.' :: ds, rest)
        | _ => some ([], s2)
      match fracRes with
      | none => none
      | some (frac, s3) =>
        let expRes : Option (Str × Str) :=
          match s3 with
          | e :: r3 =>
            if e = 'e' ∨ e = 'E' then
              let (sgn, r4) :=
                match r3 with
                | c2 :: r5 => if c2 = '+' ∨ c2 = '-' then ([c2], r5) else (([] : Str), r3)
                | [] => ([], r3)
              let (ds, rest) := r4.span isDig
              if ds = [] then none else some (e :: (sgn ++ ds), rest)
            else some ([], s3)
          | [] => some ([], s3)
        match expRes with
        | none => none
        | some (ex, s4) => some (neg ++ intPart ++ frac ++ ex, s4)

/-- Skip JSON whitespace. -/
def skipWs (s : Str) : Str := s.dropWhile isJsonWs

mutual

/-- Parse one JSON value (fuel-indexed recursive-descent model of the
value production of `JSON.parse`); returns the value and the rest. -/
def parseValue : Nat → Str → Option (JsonVal × Str)
  | 0, _ => none
  | fuel + 1, s =>
    match skipWs s with
    | [] => none
    | c :: r =>
      if c = dq then
        (parseStringRest r).map (fun p => (JsonVal.str p.1, p.2))
      else if c = '[' then
        match skipWs r with
        | c2 :: r2 =>
          if c2 = ']' then some (JsonVal.arr [], r2)
          else (parseElems fuel (skipWs r)).map (fun p => (JsonVal.arr p.1, p.2))
        | [] => none
      else if c = '{' then
        match skipWs r with
        | c2 :: r2 =>
          if c2 = '}' then some (JsonVal.obj [], r2)
          else (parseMembers fuel (skipWs r)).map (fun p => (JsonVal.obj p.1, p.2))
        | [] => none
      else
        match c :: r with
        | 'n' :: 'u' :: 'l' :: 'l' :: rest => some (JsonVal.null, rest)
        | 't' :: 'r' :: 'u' :: 'e' :: rest => some (JsonVal.bool true, rest)
        | 'f' :: 'a' :: 'l' :: 's' :: 'e' :: rest => some (JsonVal.bool false, rest)
        | s' =>
          if c = '-' ∨ isDig c then
            (lexNumber s').map (fun p => (JsonVal.num p.1, p.2))
          else none

/-- Parse the non-empty element list of a JSON array, consuming the
closing bracket. -/
def parseElems : Nat → Str → Option (List JsonVal × Str)
  | 0, _ => none
  | fuel + 1, s =>
    match parseValue fuel s with
    | none => none
    | some (v, rest) =>
      match skipWs rest with
      | ',' :: r2 => (parseElems fuel r2).map (fun p => (v :: p.1, p.2))
      | ']' :: r2 => some ([v], r2)
      | _ => none

/-- Parse the non-empty member list of a JSON object, consuming the
closing brace. -/
def parseMembers : Nat → Str → Option (List (Str × JsonVal) × Str)
  | 0, _ => none
  | fuel + 1, s =>
    match skipWs s with
    | c :: r =>
      if c = dq then
        match parseStringRest r with
        | none => none
        | some (key, r1) =>
          match skipWs r1 with
          | ':' :: r2 =>
            match parseValue fuel r2 with
            | none => none
            | some (v, r3) =>
              match skipWs r3 with
              | ',' :: r4 => (parseMembers fuel r4).map (fun p => ((key, v) :: p.1, p.2))
              | '}' :: r4 => some ([(key, v)], r4)
              | _ => none
          | _ => none
      else none
    | [] => none

end

/-- Model of `JSON.parse`: parse one value and require only whitespace to
remain.  `none` models a thrown `SyntaxError`. -/
def jsonParse (s : Str) : Option JsonVal :=
  match parseValue (s.length + 1) s with
  | some (v, rest) => if skipWs rest = [] then some v else none
  | none => none

/-- Model of JS `indexOf` for a single character: index of the first
occurrence (`none` models `-1`). -/
def indexOfChar (c : Char) : Str → Option Nat
  | [] => none
  | x :: r => if x = c then some 0 else (indexOfChar c r).map (· + 1)

/-- Model of JS `indexOf(c, from)`: first occurrence at index ≥ `from`. -/
def indexOfCharFrom (c : Char) (s : Str) (from_ : Nat) : Option Nat :=
  (indexOfChar c (s.drop from_)).map (· + from_)

/-- Model of JS `lastIndexOf` for a single character. -/
def lastIndexOfChar (c : Char) (s : Str) : Option Nat :=
  (indexOfChar c s.reverse).map (fun i => s.length - 1 - i)

/-- Model of JS `substring(i, j)` for `i ≤ j`. -/
def jsSubstring (s : Str) (i j : Nat) : Str := (s.take j).drop i

/-- Does the string start with three backticks? -/
def fenceHead (s : Str) : Bool :=
  s.take 3 = [tick, tick, tick]

/-- Does the string contain three consecutive backticks anywhere? -/
def hasFence : Str → Bool
  | [] => false
  | c :: r => fenceHead (c :: r) || hasFence r

/-- Does the string start with the (case-sensitive) tag `json`? -/
def jsonTagHead (s : Str) : Bool :=
  s.take 4 = chars "json"

/-- Does the string start with the case-insensitive tag `json`? -/
def jsonTagHeadCI (s : Str) : Bool :=
  (s.take 4).map Char.toLower = chars "json"

/-- Scan for the closing ``` of a fenced block: returns the region before
the first occurrence of three consecutive backticks (the lazy capture of
the regex), or `none` when no closing fence exists. -/
def findClose : Str → Option Str
  | [] => none
  | c :: r =>
    if fenceHead (c :: r) then some []
    else (findClose r).map (c :: ·)

/-- Model of `text.match(/```(?:json)?\s*([\s\S]*?)\s*```/)`, returning
capture group 1.  The regex engine tries each start position from the
left; a start must sit on three backticks; the optional `json` tag is
consumed greedily; the match then extends to the nearest closing ``` and
the capture is the enclosed region with surrounding whitespace absorbed
by the two `\s*` (equivalently: trimmed). -/
def fenceCapture : Str → Option Str
  | [] => none
  | c :: r =>
    if fenceHead (c :: r) then
      let afterTicks := r.drop 2
      let body := if jsonTagHead afterTicks then afterTicks.drop 4 else afterTicks
      match findClose body with
      | some region => some (trimWs region)
      | none => fenceCapture r
    else fenceCapture r

/-- Model of `cleanedText.replace(/^json\s*/i, '')` (part_001, used when
no fenced block matched). -/
def jsonTagStrip (s : Str) : Str :=
  if jsonTagHeadCI s then (s.drop 4).dropWhile isWs else s

/-- The pre-cleaning stage of `extractJson` in part_001: trim, then
strip a fenced code block — but only when the capture group is truthy
(`if (codeBlockMatch && codeBlockMatch[1])`): an empty capture (a fence
pair with whitespace-only interior) is falsy, and the code falls back
to stripping a leading bare `json` tag from the trimmed text, exactly
as when no fence matched. -/
def cleanText1 (text : Str) : Str :=
  let t := trimWs text
  match fenceCapture t with
  | some cap => if cap = [] then jsonTagStrip t else trimWs cap
  | none => jsonTagStrip t

/-- The inner `while (endIndex < cleanedText.length && balance > 0)` scan
of part_001's sequential object extraction, started on the suffix just
after an opening brace with `balance = 1`.  Returns the number of
characters consumed through the brace that returns the balance to zero,
or `none` when the input ends first (`break` case). -/
def scanObj : Str → Nat → Bool → Bool → Option Nat
  | [], _, _, _ => none
  | c :: r, balance, inString, escape =>
    if escape then
      (scanObj r balance inString false).map (· + 1)
    else if c = bsl then
      (scanObj r balance inString true).map (· + 1)
    else if c = dq then
      (scanObj r balance (!inString) false).map (· + 1)
    else if ¬ inString ∧ c = '{' then
      (scanObj r (balance + 1) inString false).map (· + 1)
    else if ¬ inString ∧ c = '}' then
      if balance = 1 then some 1
      else (scanObj r (balance - 1) inString false).map (· + 1)
    else
      (scanObj r balance inString false).map (· + 1)

/-- Does the value pass `obj && typeof obj === 'object'`?  (`null` is
falsy; only objects and arrays have `typeof` `'object'` among parse
results.) -/
def isObjLike : JsonVal → Bool
  | JsonVal.obj _ => true
  | JsonVal.arr _ => true
  | _ => false

/-- The outer loop of part_001's sequential object extraction.  `fuel`
models the `loopCount < 50` safety limiter; `start` is the index of the
current opening brace (`indexOf('{', ...)` result). -/
def seqLoop (cleaned : Str) : Nat → Nat → List JsonVal
  | 0, _ => []
  | fuel + 1, start =>
    match scanObj (cleaned.drop (start + 1)) 1 false false with
    | some consumed =>
      let endIdx := start + 1 + consumed
      let objs :=
        match jsonParse (jsSubstring cleaned start endIdx) with
        | some v => if isObjLike v then [v] else []
        | none => []
      match indexOfCharFrom '{' cleaned endIdx with
      | some next => objs ++ seqLoop cleaned fuel next
      | none => objs
    | none => []

/-- Part_001's sequential brace-balanced object extraction (fallback 3). -/
def seqExtract (cleaned : Str) : List JsonVal :=
  match indexOfChar '{' cleaned with
  | some start => seqLoop cleaned 50 start
  | none => []

/-- The widest-pair fallback shared by both `extractJson` variants: find
the first `openC` and the last `closeC`, and when they delimit a
non-empty span try to parse the inclusive substring. -/
def widestPair (openC closeC : Char) (cleaned : Str) : Option JsonVal :=
  match indexOfChar openC cleaned, lastIndexOfChar closeC cleaned with
  | some i, some j =>
    if i < j then jsonParse (jsSubstring cleaned i (j + 1)) else none
  | _, _ => none

/-- The fallback chain of part_001's `extractJson` after pre-cleaning:
direct parse, then widest `[` … `]` pair, then sequential object
extraction (whose JS result is an array of the parsed objects). -/
def extractCore1 (cleaned : Str) : Option JsonVal :=
  match jsonParse cleaned with
  | some v => some v
  | none =>
    match widestPair '[' ']' cleaned with
    | some v => some v
    | none =>
      match seqExtract cleaned with
      | [] => none
      | objs => some (JsonVal.arr objs)

/-- `extractJson` from src/unnamed/part_001 (`none` models `null`). -/
def extractJson1 (text : Str) : Option JsonVal :=
  if text = [] then none else extractCore1 (cleanText1 text)

/-- Model of `cleaned.replace(/^```(?:json)?\s*/i, "")` (part_002): an
anchored strip of an opening fence with optional case-insensitive tag. -/
def stripFenceOpen (s : Str) : Str :=
  if fenceHead s then
    let afterTicks := s.drop 3
    let afterTag := if jsonTagHeadCI afterTicks then afterTicks.drop 4 else afterTicks
    afterTag.dropWhile isWs
  else s

/-- Does the string end with three backticks? -/
def endsWithFence (s : Str) : Bool := fenceHead (s.reverse)

/-- Model of `….replace(/\s*```$/, "")` (part_002): drop a closing fence
at the very end together with the whitespace run before it. -/
def stripFenceClose (s : Str) : Str :=
  if endsWithFence s then trimRight (s.take (s.length - 3)) else s

/-- The pre-cleaning stage of `extractJson` in part_002. -/
def cleanText2 (text : Str) : Str :=
  stripFenceClose (stripFenceOpen (trimWs text))

/-- The fallback chain of part_002's `extractJson`: direct parse, widest
`[` … `]` pair, widest `{` … `}` pair. -/
def extractCore2 (cleaned : Str) : Option JsonVal :=
  match jsonParse cleaned with
  | some v => some v
  | none =>
    match widestPair '[' ']' cleaned with
    | some v => some v
    | none => widestPair '{' '}' cleaned

/-- `extractJson` from src/unnamed/part_002 (`none` models `null`). -/
def extractJson2 (text : Str) : Option JsonVal :=
  if text = [] then none else extractCore2 (cleanText2 text)

/-- Is the numeric lexeme non-zero (JS truthiness of a parsed number)?
A JSON number is zero exactly when its mantissa has no digit 1–9. -/
def numTruthy (lexeme : Str) : Bool :=
  (lexeme.takeWhile (fun c => ¬ (c = 'e' ∨ c = 'E'))).any (fun c => '1' ≤ c && c ≤ '9')

/-- JS truthiness of a `JSON.parse` result. -/
def jsTruthy : JsonVal → Bool
  | JsonVal.null => false
  | JsonVal.bool b => b
  | JsonVal.num l => numTruthy l
  | JsonVal.str s => ¬ s.isEmpty
  | JsonVal.arr _ => true
  | JsonVal.obj _ => true

/-- JS property read on an object field list: the last binding wins, as
for duplicate keys in `JSON.parse`; `none` models `undefined`. -/
def objGet (m : List (Str × JsonVal)) (k : Str) : Option JsonVal :=
  (m.reverse.find? (fun p => p.1 = k)).map (fun p => p.2)

/-- JS property read on an arbitrary value: only objects expose the
article fields (`({...primitive})` and array spreads contribute no
`title`-like keys). -/
def elemGet (v : JsonVal) (k : Str) : Option JsonVal :=
  match v with
  | JsonVal.obj m => objGet m k
  | _ => none

/-- JS truthiness of a possibly-`undefined` value. -/
def truthyOpt : Option JsonVal → Bool
  | none => false
  | some v => jsTruthy v

/-- Model of `x || d` where `x` may be `undefined`. -/
def jsOr (x : Option JsonVal) (d : JsonVal) : JsonVal :=
  match x with
  | some v => if jsTruthy v then v else d
  | none => d

/-- Is the value a JS array (`Array.isArray`)? -/
def isArrayVal : JsonVal → Bool
  | JsonVal.arr _ => true
  | _ => false

/-- Extract an array's elements, if the value is an array. -/
def asArray : JsonVal → Option (List JsonVal)
  | JsonVal.arr xs => some xs
  | _ => none

/-- An article record as returned to the UI layer.  Every field is
`Option`-valued: `none` models a JS `undefined` / missing key.
`sourceUrl` and `sourceName` are kept as strings. -/
structure ArticleOut where
  title : Option JsonVal
  summary : Option JsonVal
  category : Option JsonVal
  publishedAt : Option JsonVal
  sourceUrl : Option Str
  sourceName : Option Str

/-- Map with the element index, as JS `Array.prototype.map((x, i) => …)`. -/
def mapIdxFrom (f : Nat → α → β) : Nat → List α → List β
  | _, [] => []
  | i, a :: r => f i a :: mapIdxFrom f (i + 1) r

/-- Map with the element index starting at 0. -/
def mapWithIndex (f : Nat → α → β) (l : List α) : List β := mapIdxFrom f 0 l

/-- The parse-failure placeholder of part_001's `fetchNewsFromAgent`
(lines 158–164). -/
def placeholderParse1 : ArticleOut :=
  { title := some (JsonVal.str (chars "שגיאה בטעינת הנתונים"))
  , summary := some (JsonVal.str
      (chars "המודל החזיר תשובה שאינה תקינה. אנא נסה שוב או נסח את החיפוש מחדש."))
  , category := some (JsonVal.str (chars "General"))
  , publishedAt := some (JsonVal.str (chars "עכשיו"))
  , sourceUrl := none
  , sourceName := none }

/-- The transport-failure placeholder of part_001's `fetchNewsFromAgent`
(outer `catch`, lines 184–189).  Reached also when the shaping step
itself throws (e.g. `.map` on a non-array `articles.news`). -/
def placeholderTransport1 : ArticleOut :=
  { title := some (JsonVal.str (chars "שגיאה בתקשורת"))
  , summary := some (JsonVal.str (chars "לא ניתן היה ליצור קשר עם השרת. אנא בדוק את החיבור שלך."))
  , category := some (JsonVal.str (chars "General"))
  , publishedAt := some (JsonVal.str (chars "עכשיו"))
  , sourceUrl := none
  , sourceName := none }

/-- The parse-failure placeholder of part_001's `fetchDeepResearch`. -/
def placeholderParseDeep1 : ArticleOut :=
  { title := some (JsonVal.str (chars "ניתוח לא זמין"))
  , summary := some (JsonVal.str (chars "לא ניתן היה לעבד את תוצאות המחקר. אנא נסה שוב."))
  , category := some (JsonVal.str (chars "General"))
  , publishedAt := some (JsonVal.str (chars "עכשיו"))
  , sourceUrl := none
  , sourceName := none }

/-- The transport-failure placeholder of part_001's `fetchDeepResearch`. -/
def placeholderTransportDeep1 : ArticleOut :=
  { title := some (JsonVal.str (chars "שגיאה בניתוח מעמיק"))
  , summary := some (JsonVal.str (chars "המודל נתקל בבעיה בעת ביצוע חשיבה עמוקה. אנא נסה שוב."))
  , category := some (JsonVal.str (chars "General"))
  , publishedAt := some (JsonVal.str (chars "עכשיו"))
  , sourceUrl := none
  , sourceName := none }

/-- The `catch` placeholder of part_002's `fetchNewsFromAgent`. -/
def placeholderCatch2 : ArticleOut :=
  { title := some (JsonVal.str (chars "שגיאה בטעינת החדשות"))
  , summary := some (JsonVal.str (chars "אנא נסה שוב מאוחר יותר."))
  , category := some (JsonVal.str (chars "General"))
  , publishedAt := some (JsonVal.str (chars "עכשיו"))
  , sourceUrl := none
  , sourceName := none }

/-- Lines 153–165 of part_001: normalize the extraction result to the
value that flows into `.map`.  `none` means the early return of the
fixed parse-failure placeholder.  When the value is truthy but not an
array, a truthy `news` or `articles` property is substituted (with no
array check: a non-array value is passed through and makes `.map`
throw). -/
def chooseArticles1 (extracted : Option JsonVal) : Option JsonVal :=
  match extracted with
  | none => none
  | some v =>
    if isArrayVal v then some v
    else if jsTruthy v ∧ truthyOpt (elemGet v (chars "news")) then
      elemGet v (chars "news")
    else if jsTruthy v ∧ truthyOpt (elemGet v (chars "articles")) then
      elemGet v (chars "articles")
    else none

/-- One mapped record of part_001's `fetchNewsFromAgent` (lines 171–180):
spread of the parsed element, then `sourceUrl` by matching index only and
`sourceName` from the URL host or a fixed label.  `host` stands for
`new URL(url).hostname.replace('www.', '')`, which is applied only to
grounding-metadata links (assumed well-formed URLs). -/
def mkRec1 (host : Str → Str) (links : List Str) (i : Nat) (v : JsonVal) : ArticleOut :=
  let url : Option Str := links[i]?
  { title := elemGet v (chars "title")
  , summary := elemGet v (chars "summary")
  , category := elemGet v (chars "category")
  , publishedAt := elemGet v (chars "publishedAt")
  , sourceUrl := url
  , sourceName :=
      match url with
      | some u => some (host u)
      | none => some (chars "מקור ברשת") }

/-- Result shaping of part_001's `fetchNewsFromAgent` (lines 151–190),
as a function of the extraction result and the grounding links.  A
non-array value surviving `chooseArticles1` makes `.map` throw, which the
outer `catch` turns into the transport placeholder. -/
def fetchNewsShape1 (host : Str → Str) (extracted : Option JsonVal)
    (links : List Str) : List ArticleOut :=
  match chooseArticles1 extracted with
  | none => [placeholderParse1]
  | some v =>
    match v with
    | JsonVal.arr xs => mapWithIndex (mkRec1 host links) xs
    | _ => [placeholderTransport1]

/-- One mapped record of part_001's `fetchDeepResearch` (lines 248–252):
spread, then `sourceUrl := validLinks[i % validLinks.length]` (with
`i % 0 = NaN`, hence `undefined`, when no links exist) and a fixed
`sourceName`. -/
def mkRecDeep1 (links : List Str) (i : Nat) (v : JsonVal) : ArticleOut :=
  { title := elemGet v (chars "title")
  , summary := elemGet v (chars "summary")
  , category := elemGet v (chars "category")
  , publishedAt := elemGet v (chars "publishedAt")
  , sourceUrl := if h : links.length = 0 then none else some (links.get ⟨i % links.length, Nat.mod_lt _ (Nat.pos_of_ne_zero h)⟩)
  , sourceName := some (chars "Gemini 3 Pro Analysis") }

/-- Result shaping of part_001's `fetchDeepResearch` (lines 230–252). -/
def fetchDeepShape1 (extracted : Option JsonVal) (links : List Str) : List ArticleOut :=
  match chooseArticles1 extracted with
  | none => [placeholderParseDeep1]
  | some v =>
    match v with
    | JsonVal.arr xs => mapWithIndex (mkRecDeep1 links) xs
    | _ => [placeholderTransportDeep1]

/-- Lines 96–103 of part_002: normalize the extraction result to the
list that is mapped (defaulting to the empty list). -/
def chooseArticles2 (extracted : Option JsonVal) : List JsonVal :=
  match extracted with
  | some (JsonVal.arr xs) => xs
  | some (JsonVal.obj m) =>
    match objGet m (chars "news") with
    | some (JsonVal.arr xs) => xs
    | _ =>
      match objGet m (chars "articles") with
      | some (JsonVal.arr xs) => xs
      | _ => [JsonVal.obj m]
  | _ => []

/-- Is the value JSON `null`?  A JS property access such as
`article.title` on a `null` element throws a `TypeError`. -/
def isNullVal : JsonVal → Bool
  | JsonVal.null => true
  | _ => false

/-- One mapped record of part_002's `fetchNewsFromAgent` (lines 111–121)
for an element on which property access succeeds (any non-`null` parse
result): every display field is defaulted with `||`, links are
distributed by `index % validLinks.length`.  The `null`-element throw
path is handled in `fetchNewsShape2`. -/
def mkRec2 (host : Str → Str) (links : List Str) (i : Nat) (v : JsonVal) : ArticleOut :=
  let url : Option Str :=
    if h : links.length = 0 then none
    else some (links.get ⟨i % links.length, Nat.mod_lt _ (Nat.pos_of_ne_zero h)⟩)
  { title := some (jsOr (elemGet v (chars "title")) (JsonVal.str (chars "ללא כותרת")))
  , summary := some (jsOr (elemGet v (chars "summary")) (JsonVal.str []))
  , category := some (jsOr (elemGet v (chars "category")) (JsonVal.str (chars "General")))
  , publishedAt := some (jsOr (elemGet v (chars "publishedAt")) (JsonVal.str (chars "לאחרונה")))
  , sourceUrl := url
  , sourceName :=
      match url with
      | some u => some (host u)
      | none => none }

/-- Result shaping of part_002's `fetchNewsFromAgent` (lines 92–121).
When any selected element is `null`, the map body's `article.title`
property access throws, the outer `catch` takes over, and the whole
result is the fixed catch placeholder. -/
def fetchNewsShape2 (host : Str → Str) (extracted : Option JsonVal)
    (links : List Str) : List ArticleOut :=
  let articles := chooseArticles2 extracted
  if articles.any isNullVal then [placeholderCatch2]
  else mapWithIndex (mkRec2 host links) articles

/-- The `catch` placeholder of part_002's `fetchDeepResearch`. -/
def placeholderCatchDeep2 : ArticleOut :=
  { title := some (JsonVal.str (chars "שגיאה בניתוח"))
  , summary := some (JsonVal.str (chars "המודל נתקל בבעיה."))
  , category := some (JsonVal.str (chars "General"))
  , publishedAt := some (JsonVal.str (chars "עכשיו"))
  , sourceUrl := none
  , sourceName := none }

/-- Result shaping of part_002's `fetchDeepResearch` (lines 155–165):
`Array.isArray(data) ? data : (data?.articles || [])`, then a spread
map whose record shape is identical to part_001's deep-research map
(`mkRecDeep1`: `sourceUrl` cycles the links modulo their number).  A
spread tolerates `null` elements, so no null guard is needed here; a
truthy non-array `articles` property reaches `.map`, throws, and yields
the catch placeholder. -/
def fetchDeepShape2 (links : List Str) (extracted : Option JsonVal) : List ArticleOut :=
  let chosen : JsonVal :=
    match extracted with
    | none => JsonVal.arr []
    | some v =>
      if isArrayVal v then v
      else
        match v with
        | JsonVal.null => JsonVal.arr []
        | _ =>
          match elemGet v (chars "articles") with
          | some w => if jsTruthy w then w else JsonVal.arr []
          | none => JsonVal.arr []
  match chosen with
  | JsonVal.arr xs => mapWithIndex (mkRecDeep1 links) xs
  | _ => [placeholderCatchDeep2]

/-- part_002's `fetchNewsFromAgent` as a function of the collaborator
outcome: a transport error is caught and replaced by the fixed
placeholder; otherwise the response text is extracted and shaped. -/
def fetchNews2 (host : Str → Str) (outcome : Option (Str × List Str)) : List ArticleOut :=
  match outcome with
  | none => [placeholderCatch2]
  | some (text, links) => fetchNewsShape2 host (extractJson2 text) links

/-- Scan state of the UI layer (`AgentState.isScanning` plus the pieces
the scheduler reads). -/
structure ScanSt where
  isScanning : Bool
  hasCompleted : Bool

/-- `updateNews` (src/App.tsx lines 471–501) as a state transformer over
the scan flag, parametrised by the outcome of the awaited fetch:
the flag is raised at entry and lowered in both the success branch and
the `catch` branch. -/
def updateNewsRun (outcome : Except Unit (List ArticleOut)) (st : ScanSt) : ScanSt :=
  let st1 := { st with isScanning := true }
  match outcome with
  | Except.ok _ => { st1 with isScanning := false, hasCompleted := true }
  | Except.error _ => { st1 with isScanning := false }

/-- `handleImageUpload` (src/App.tsx lines 503–520) as a state
transformer: the flag is raised, then the `FileReader.onloadend` async
callback awaits `analyzeImage` (which rethrows its errors).  A rejection
inside the callback escapes the surrounding `try`/`catch`, so no state
update runs on that path; only the success branch lowers the flag. -/
def handleImageUploadRun (analyzeOutcome : Except Unit ArticleOut) (st : ScanSt) : ScanSt :=
  let st1 := { st with isScanning := true }
  match analyzeOutcome with
  | Except.ok _ => { st1 with isScanning := false, hasCompleted := true }
  | Except.error _ => st1

/-- Scheduler state read by the autonomous agent loop (src/App.tsx
lines 427–448). -/
structure SchedState where
  isScanning : Bool
  topic : Str
  nextRefreshTime : Nat

/-- One interval tick of the autonomous agent loop (lines 434–440): if a
fetch is in flight the tick does nothing at all; otherwise it invokes
`updateNews(currentTopic, false)` — which raises the in-flight flag —
and recomputes `nextRefreshTime = now + interval`.  The returned list
collects the topics of the fetch invocations performed by the tick. -/
def tickStep (now interval : Nat) (s : SchedState) : SchedState × List Str :=
  if s.isScanning then (s, [])
  else ({ s with isScanning := true, nextRefreshTime := now + interval }, [s.topic])

/-- Completion of an in-flight fetch cycle (the terminal `setAgentState`
of `updateNews`): the in-flight flag is lowered. -/
def completeStep (s : SchedState) : SchedState := { s with isScanning := false }

/-- The search-history update of the second `App` revision (src/App.tsx
lines 481–487): de-duplicate, prepend, cap at 10. -/
def updateHistoryV2 (topic : Str) (prev : List Str) : List Str :=
  (topic :: prev.filter (fun t => t ≠ topic)).take 10

/-- The search-history update of the first `App` revision (src/App.tsx
lines 101–107): prepend without de-duplication, cap at 50. -/
def updateHistoryV1 (topic : Str) (prev : List Str) : List Str :=
  (topic :: prev).take 50

/-! ### General lemmas about the embedding -/

theorem mapIdxFrom_length (f : Nat → α → β) :
    ∀ (n : Nat) (l : List α), (mapIdxFrom f n l).length = l.length := by
  intro n l
  induction l generalizing n with
  | nil => rfl
  | cons a r ih => simp [mapIdxFrom, ih]

theorem mapWithIndex_length (f : Nat → α → β) (l : List α) :
    (mapWithIndex f l).length = l.length := mapIdxFrom_length f 0 l

theorem mapIdxFrom_getElem (f : Nat → α → β) :
    ∀ (n : Nat) (l : List α) (i : Nat), (mapIdxFrom f n l)[i]? = (l[i]?).map (f (n + i)) := by
  intro n l
  induction l generalizing n with
  | nil => intro i; rfl
  | cons a r ih =>
    intro i
    cases i with
    | zero => simp [mapIdxFrom]
    | succ i' =>
      simp only [mapIdxFrom, List.getElem?_cons_succ]
      rw [ih (n + 1) i']
      have h : n + 1 + i' = n + (i' + 1) := by omega
      rw [h]

theorem mapWithIndex_getElem (f : Nat → α → β) (l : List α) (i : Nat) :
    (mapWithIndex f l)[i]? = (l[i]?).map (f i) := by
  have := mapIdxFrom_getElem f 0 l i
  simpa [mapWithIndex] using this

theorem mem_mapIdxFrom (f : Nat → α → β) :
    ∀ (n : Nat) (l : List α) (b : β), b ∈ mapIdxFrom f n l → ∃ i x, x ∈ l ∧ b = f i x := by
  intro n l
  induction l generalizing n with
  | nil => intro b h; cases h
  | cons a r ih =>
    intro b h
    rcases h with _ | ⟨_, h⟩
    · exact ⟨n, a, List.mem_cons_self a r, rfl⟩
    · obtain ⟨i, x, hx, hb⟩ := ih (n + 1) b h
      exact ⟨i, x, List.mem_cons_of_mem a hx, hb⟩

theorem seqLoop_length_le (cleaned : Str) :
    ∀ (fuel start : Nat), (seqLoop cleaned fuel start).length ≤ fuel := by
  intro fuel
  induction fuel with
  | zero => intro start; simp [seqLoop]
  | succ n ih =>
    intro start
    simp only [seqLoop]
    rcases scanObj (cleaned.drop (start + 1)) 1 false false with _ | consumed
    · simp
    · simp only
      rcases hp : jsonParse (jsSubstring cleaned start (start + 1 + consumed)) with _ | v
      · simp only
        rcases indexOfCharFrom '{' cleaned (start + 1 + consumed) with _ | nxt
        · simp
        · simpa using Nat.le_trans (ih nxt) (Nat.le_succ n)
      · rcases hob : isObjLike v with _ | _ <;> simp only [hob]
        · rcases indexOfCharFrom '{' cleaned (start + 1 + consumed) with _ | nxt
          · simp
          · simpa using Nat.le_trans (ih nxt) (Nat.le_succ n)
        · rcases indexOfCharFrom '{' cleaned (start + 1 + consumed) with _ | nxt
          · simp
          · simpa using Nat.succ_le_succ (ih nxt)

theorem indexOfChar_append {c : Char} {pre : Str} (t : Str) (h : c ∉ pre) :
    indexOfChar c (pre ++ t) = (indexOfChar c t).map (· + pre.length) := by
  induction pre with
  | nil =>
    simp only [List.nil_append, List.length_nil]
    cases indexOfChar c t <;> simp
  | cons a r ih =>
    have ha : a ≠ c := fun hc => h (hc ▸ List.mem_cons_self a r)
    have hr : c ∉ r := fun hc => h (List.mem_cons_of_mem a hc)
    show (if a = c then some 0 else (indexOfChar c (r ++ t)).map (· + 1)) =
      (indexOfChar c t).map (· + (a :: r).length)
    rw [if_neg ha, ih hr]
    cases indexOfChar c t <;> simp [Nat.add_assoc]

/-! ### Claim theorems -/

/-- C3: the sequential brace-balanced extraction attempts at most 50
objects on any input, and (via the full fallback chain of part_001's
`extractJson`) two back-to-back balanced objects with prose around them
yield exactly the two parsed objects in source order, while a truncated
final object yields only the objects closed before the truncation; the
extraction is a total function (never raises). -/
theorem c3_sequential_extraction :
    (∀ cleaned : Str, (seqExtract cleaned).length ≤ 50) ∧
    extractJson1 (chars "Blah \x7b\"a\":1\x7d \x7b\"b\":2\x7d end") =
      some (JsonVal.arr
        [JsonVal.obj [(chars "a", JsonVal.num (chars "1"))],
         JsonVal.obj [(chars "b", JsonVal.num (chars "2"))]]) ∧
    extractJson1 (chars "x \x7b\"a\":1\x7d\x7b\"b\":") =
      some (JsonVal.arr [JsonVal.obj [(chars "a", JsonVal.num (chars "1"))]]) := by
  refine ⟨fun cleaned => ?_, rfl, rfl⟩
  unfold seqExtract
  rcases indexOfChar '{' cleaned with _ | start
  · simp
  · exact seqLoop_length_le cleaned 50 start

/-- C8: a timer tick of the autonomous agent loop that fires while a
fetch cycle is in flight performs no fetch invocation and leaves the
scheduler state untouched (drop, no queuing); the next tick after the
in-flight cycle completes invokes the fetch for the current topic. -/
theorem c8_tick_skip (s : SchedState) (now now2 interval : Nat)
    (h : s.isScanning = true) :
    (tickStep now interval s).2 = [] ∧
    (tickStep now interval s).1 = s ∧
    (tickStep now2 interval (completeStep (tickStep now interval s).1)).2 = [s.topic] ∧
    (tickStep now2 interval (completeStep (tickStep now interval s).1)).1.isScanning = true := by
  simp [tickStep, completeStep, h]

/-- C8 witness: the "fast" (2-minute, 120000 ms interval) scenario: a
tick during an in-flight fetch invokes nothing; the tick after
completion fetches the current topic. -/
theorem c8_tick_skip_witness :
    (tickStep 0 120000 ⟨true, chars "agent", 0⟩).2 = [] ∧
    (tickStep 0 120000 ⟨true, chars "agent", 0⟩).1 = ⟨true, chars "agent", 0⟩ ∧
    (tickStep 120000 120000 (completeStep (tickStep 0 120000 ⟨true, chars "agent", 0⟩).1)).2 =
      [chars "agent"] ∧
    (tickStep 120000 120000
      (completeStep (tickStep 0 120000 ⟨true, chars "agent", 0⟩).1)).1.isScanning = true :=
  c8_tick_skip ⟨true, chars "agent", 0⟩ 0 120000 120000 rfl

/-- C9: `updateNews` lowers the in-flight flag on both its success and
its catch path, but `handleImageUpload` does not: when `analyzeImage`
rejects (it rethrows collaborator errors), the rejection escapes the
`FileReader.onloadend` callback past the surrounding `try`/`catch` and
the flag stays raised — the claimed finally-equivalent reset fails on
the image-analysis path. -/
theorem c9_scan_flag_reset :
    (∀ (o : Except Unit (List ArticleOut)) (st : ScanSt),
      (updateNewsRun o st).isScanning = false) ∧
    (handleImageUploadRun (Except.error ()) ⟨false, false⟩).isScanning = true := by
  refine ⟨fun o st => ?_, rfl⟩
  cases o <;> rfl

/-- C10 counterexample: in the first `App` revision the stored history
is not de-duplicated — submitting a topic already in the history leaves
two entries for it. -/
theorem c10_counterexample :
    (updateHistoryV1 (chars "a") [chars "a"]).count (chars "a") = 2 := by decide

/-- C10 (amended): the history update of the second `App` revision
stores exactly one entry for the submitted topic, at the most-recent
position, and never exceeds 10 entries. -/
theorem c10_history (topic : Str) (prev : List Str) :
    (updateHistoryV2 topic prev).count topic = 1 ∧
    (updateHistoryV2 topic prev).head? = some topic ∧
    (updateHistoryV2 topic prev).length ≤ 10 := by
  unfold updateHistoryV2
  refine ⟨?_, by simp, by simp [List.length_take_le]⟩
  rw [List.take_succ_cons, List.count_cons_self]
  have hsub : List.Sublist ((prev.filter (fun t => t ≠ topic)).take 9)
      (prev.filter (fun t => t ≠ topic)) :=
    List.take_sublist 9 _
  have hz : (prev.filter (fun t => t ≠ topic)).count topic = 0 := by
    rw [List.count_eq_zero]
    intro hmem
    have := List.of_mem_filter hmem
    simp at this
  have hle := hsub.count_le topic
  omega

/-- C1 counterexample: the returned sequence is not always non-empty —
a response that parses to an empty JSON array yields an empty article
sequence, not a placeholder. -/
theorem c1_counterexample :
    fetchNewsShape1 (fun _ => []) (extractJson1 (chars "[]")) [] = [] := rfl

/-- C1 (amended): the normalizer plus result shaping is a total function
(never raises); whenever extraction fails entirely (`null`) the caller
returns exactly the single fixed parse-failure placeholder; the returned
sequence can be empty only when normalization produced an (arbitrarily
nested) empty array. -/
theorem c1_placeholder (host : Str → Str) (text : Str) (links : List Str) :
    (extractJson1 text = none →
      fetchNewsShape1 host (extractJson1 text) links = [placeholderParse1]) ∧
    (fetchNewsShape1 host (extractJson1 text) links = [] →
      chooseArticles1 (extractJson1 text) = some (JsonVal.arr [])) := by
  constructor
  · intro h; rw [h]; rfl
  · intro h
    rcases hch : chooseArticles1 (extractJson1 text) with _ | v
    · rw [fetchNewsShape1, hch] at h; cases h
    · rw [fetchNewsShape1, hch] at h
      cases v with
      | arr xs =>
        have hlen := congrArg List.length h
        rw [mapWithIndex_length] at hlen
        simp at hlen
        rw [hlen]
      | null => cases h
      | bool b => cases h
      | num l => cases h
      | str s => cases h
      | obj m => cases h

/-- C1 witness: unparseable text produces the single placeholder. -/
theorem c1_placeholder_witness :
    fetchNewsShape1 (fun _ => []) (extractJson1 (chars "no data here")) [] =
      [placeholderParse1] :=
  (c1_placeholder (fun _ => []) (chars "no data here") []).1 rfl

/-- C4 counterexample: the part_001 plain-search shaping spreads parsed
elements without filling defaults — a parsed `[{}]` yields one record
whose `title` is undefined. -/
theorem c4_counterexample :
    (fetchNewsShape1 (fun _ => []) (extractJson1 (chars "[\x7b\x7d]")) []).map
      ArticleOut.title = [none] := rfl

/-- C4 (amended): in part_002's `fetchNewsFromAgent` every returned
record (including the catch placeholder) has non-undefined `title`,
`summary`, `category` and `publishedAt`: missing keys are defaulted.
The part_001 shaping does not fill these defaults. -/
theorem c4_fields_defined (host : Str → Str) (outcome : Option (Str × List Str))
    (a : ArticleOut) (ha : a ∈ fetchNews2 host outcome) :
    a.title.isSome ∧ a.summary.isSome ∧ a.category.isSome ∧ a.publishedAt.isSome := by
  rcases outcome with _ | ⟨text, links⟩
  · rcases ha with _ | ⟨_, h⟩
    · exact ⟨rfl, rfl, rfl, rfl⟩
    · cases h
  · have heq : fetchNews2 host (some (text, links)) =
        if (chooseArticles2 (extractJson2 text)).any isNullVal then [placeholderCatch2]
        else mapWithIndex (mkRec2 host links) (chooseArticles2 (extractJson2 text)) := rfl
    rw [heq] at ha
    rcases hg : (chooseArticles2 (extractJson2 text)).any isNullVal with _ | _
    · rw [hg] at ha
      simp only [Bool.false_eq_true, if_false] at ha
      obtain ⟨i, x, _, hb⟩ := mem_mapIdxFrom (mkRec2 host links) 0 _ a ha
      subst hb
      exact ⟨rfl, rfl, rfl, rfl⟩
    · rw [hg] at ha
      simp only [if_true] at ha
      rcases ha with _ | ⟨_, h⟩
      · exact ⟨rfl, rfl, rfl, rfl⟩
      · cases h

/-- C4 witness: the record shaped from the parsed `[{}]` response has
all four display fields defined. -/
theorem c4_fields_defined_witness :
    (mkRec2 (fun _ => []) [] 0 (JsonVal.obj [])).title.isSome ∧
    (mkRec2 (fun _ => []) [] 0 (JsonVal.obj [])).summary.isSome ∧
    (mkRec2 (fun _ => []) [] 0 (JsonVal.obj [])).category.isSome ∧
    (mkRec2 (fun _ => []) [] 0 (JsonVal.obj [])).publishedAt.isSome :=
  c4_fields_defined (fun _ => []) (some (chars "[\x7b\x7d]", [])) _ (List.Mem.head _)

/-- C5 counterexample: the part_002 plain-search path does not assign
links by matching index only — with two records and a single link, the
record at index 1 still receives the link (modulo cycling), where the
claim requires `sourceUrl` unset. -/
theorem c5_counterexample :
    ((fetchNewsShape2 (fun _ => []) (some (JsonVal.arr [JsonVal.obj [], JsonVal.obj []]))
      [chars "u"])[1]?).map ArticleOut.sourceUrl = some (some (chars "u")) := rfl

/-- C5 (amended): part_001's plain search assigns each record exactly
the link at its own index (`none` past the end); the deep-research
paths of both variants and part_002's plain-search path cycle the link
list modulo its length, so there every record receives a link whenever
at least one exists — for part_002's plain search provided no parsed
element is `null`: a `null` element makes the map throw, and the whole
result is the single catch placeholder, which carries no link. -/
theorem c5_link_assignment :
    (∀ (host : Str → Str) (xs : List JsonVal) (links : List Str) (i : Nat) (a : ArticleOut),
      (fetchNewsShape1 host (some (JsonVal.arr xs)) links)[i]? = some a →
      a.sourceUrl = links[i]?) ∧
    (∀ (xs : List JsonVal) (links : List Str) (i : Nat) (a : ArticleOut),
      links ≠ [] →
      (fetchDeepShape1 (some (JsonVal.arr xs)) links)[i]? = some a →
      a.sourceUrl.isSome) ∧
    (∀ (host : Str → Str) (xs : List JsonVal) (links : List Str) (i : Nat) (a : ArticleOut),
      links ≠ [] → xs.any isNullVal = false →
      (fetchNewsShape2 host (some (JsonVal.arr xs)) links)[i]? = some a →
      a.sourceUrl.isSome) ∧
    (∀ (xs : List JsonVal) (links : List Str) (i : Nat) (a : ArticleOut),
      links ≠ [] →
      (fetchDeepShape2 links (some (JsonVal.arr xs)))[i]? = some a →
      a.sourceUrl.isSome) ∧
    (∀ (host : Str → Str) (xs : List JsonVal) (links : List Str),
      xs.any isNullVal = true →
      fetchNewsShape2 host (some (JsonVal.arr xs)) links = [placeholderCatch2]) := by
  refine ⟨?_, ?_, ?_, ?_, ?_⟩
  · intro host xs links i a ha
    rw [show fetchNewsShape1 host (some (JsonVal.arr xs)) links =
          mapWithIndex (mkRec1 host links) xs from rfl,
        mapWithIndex_getElem] at ha
    rcases hx : xs[i]? with _ | x
    · rw [hx] at ha; cases ha
    · rw [hx] at ha
      cases ha
      rfl
  · intro xs links i a hne ha
    rw [show fetchDeepShape1 (some (JsonVal.arr xs)) links =
          mapWithIndex (mkRecDeep1 links) xs from rfl,
        mapWithIndex_getElem] at ha
    rcases hx : xs[i]? with _ | x
    · rw [hx] at ha; cases ha
    · rw [hx] at ha
      cases ha
      have hlen : links.length ≠ 0 := fun h0 => hne (List.eq_nil_of_length_eq_zero h0)
      simp [mkRecDeep1, hlen]
  · intro host xs links i a hne hnull ha
    rw [show fetchNewsShape2 host (some (JsonVal.arr xs)) links =
          (if xs.any isNullVal then [placeholderCatch2]
           else mapWithIndex (mkRec2 host links) xs) from rfl,
        hnull] at ha
    simp only [Bool.false_eq_true, if_false] at ha
    rw [mapWithIndex_getElem] at ha
    rcases hx : xs[i]? with _ | x
    · rw [hx] at ha; cases ha
    · rw [hx] at ha
      cases ha
      have hlen : links.length ≠ 0 := fun h0 => hne (List.eq_nil_of_length_eq_zero h0)
      simp [mkRec2, hlen]
  · intro xs links i a hne ha
    rw [show fetchDeepShape2 links (some (JsonVal.arr xs)) =
          mapWithIndex (mkRecDeep1 links) xs from rfl,
        mapWithIndex_getElem] at ha
    rcases hx : xs[i]? with _ | x
    · rw [hx] at ha; cases ha
    · rw [hx] at ha
      cases ha
      have hlen : links.length ≠ 0 := fun h0 => hne (List.eq_nil_of_length_eq_zero h0)
      simp [mkRecDeep1, hlen]
  · intro host xs links hnull
    rw [show fetchNewsShape2 host (some (JsonVal.arr xs)) links =
          (if xs.any isNullVal then [placeholderCatch2]
           else mapWithIndex (mkRec2 host links) xs) from rfl,
        hnull]
    rfl

/-- C5 witness: with a single link, the part_001 plain-search record at
index 1 has no link; the deep-research records of both variants and the
part_002 plain-search record past the first index do have links; and a
`null` element sends part_002's plain search to the catch placeholder. -/
theorem c5_link_assignment_witness :
    (mkRec1 (fun _ => []) [chars "u"] 1 (JsonVal.obj [])).sourceUrl =
      ([chars "u"] : List Str)[1]? ∧
    (mkRecDeep1 [chars "u"] 1 (JsonVal.obj [])).sourceUrl.isSome ∧
    (mkRec2 (fun _ => []) [chars "u"] 1 (JsonVal.obj [])).sourceUrl.isSome ∧
    (mkRecDeep1 [chars "u"] 2 (JsonVal.obj [])).sourceUrl.isSome ∧
    fetchNewsShape2 (fun _ => []) (some (JsonVal.arr [JsonVal.null])) [chars "u"] =
      [placeholderCatch2] :=
  ⟨c5_link_assignment.1 (fun _ => []) [JsonVal.obj [], JsonVal.obj []] [chars "u"] 1 _ rfl,
   c5_link_assignment.2.1 [JsonVal.obj [], JsonVal.obj []] [chars "u"] 1 _ (by simp) rfl,
   c5_link_assignment.2.2.1 (fun _ => []) [JsonVal.obj [], JsonVal.obj []] [chars "u"] 1 _
     (by simp) rfl rfl,
   c5_link_assignment.2.2.2.1 [JsonVal.obj [], JsonVal.obj [], JsonVal.obj []] [chars "u"] 2 _
     (by simp) rfl,
   c5_link_assignment.2.2.2.2 (fun _ => []) [JsonVal.null] [chars "u"] rfl⟩

/-- C6 counterexample: in part_001, a successfully parsed single object
with no nested `news`/`articles` array is not wrapped as a one-element
sequence — the caller substitutes the fixed parse-failure placeholder
instead. -/
theorem c6_counterexample :
    fetchNewsShape1 (fun _ => []) (extractJson1 (chars "\x7b\"a\":1\x7d")) [] =
      [placeholderParse1] ∧
    placeholderParse1.title = some (JsonVal.str (chars "שגיאה בטעינת הנתונים")) :=
  ⟨rfl, rfl⟩

/-- C6 (amended): in part_002, a parsed single object is post-processed
by first using a nested array under `news`, then under `articles`
(yielding the mapped, defaulted records as long as no element is
`null` — a `null` element makes the map throw into the catch
placeholder), and otherwise wrapping the object itself as a one-element
sequence; part_001 instead replaces an object without such keys by the
placeholder. -/
theorem c6_object_postprocessing (host : Str → Str) (m : List (Str × JsonVal))
    (links : List Str) :
    (∀ xs, objGet m (chars "news") = some (JsonVal.arr xs) →
      xs.any isNullVal = false →
      fetchNewsShape2 host (some (JsonVal.obj m)) links =
        mapWithIndex (mkRec2 host links) xs) ∧
    ((objGet m (chars "news")).bind asArray = none →
      ∀ ys, objGet m (chars "articles") = some (JsonVal.arr ys) →
      ys.any isNullVal = false →
      fetchNewsShape2 host (some (JsonVal.obj m)) links =
        mapWithIndex (mkRec2 host links) ys) ∧
    ((objGet m (chars "news")).bind asArray = none →
      (objGet m (chars "articles")).bind asArray = none →
      fetchNewsShape2 host (some (JsonVal.obj m)) links =
        [mkRec2 host links 0 (JsonVal.obj m)]) := by
  have heq : fetchNewsShape2 host (some (JsonVal.obj m)) links =
      (if (chooseArticles2 (some (JsonVal.obj m))).any isNullVal then [placeholderCatch2]
       else mapWithIndex (mkRec2 host links) (chooseArticles2 (some (JsonVal.obj m)))) := rfl
  refine ⟨?_, ?_, ?_⟩
  · intro xs hxs hnull
    have hch : chooseArticles2 (some (JsonVal.obj m)) = xs := by
      simp [chooseArticles2, hxs]
    rw [heq, hch, hnull]
    simp
  · intro hnews ys hys hnull
    have hch : chooseArticles2 (some (JsonVal.obj m)) = ys := by
      rcases hn : objGet m (chars "news") with _ | v
      · simp [chooseArticles2, hn, hys]
      · rw [hn] at hnews
        cases v <;> simp_all [chooseArticles2, asArray]
    rw [heq, hch, hnull]
    simp
  · intro hnews harts
    have hch : chooseArticles2 (some (JsonVal.obj m)) = [JsonVal.obj m] := by
      rcases hn : objGet m (chars "news") with _ | v <;>
        rcases ha : objGet m (chars "articles") with _ | w
      · simp [chooseArticles2, hn, ha]
      · rw [ha] at harts
        cases w <;> simp_all [chooseArticles2, asArray]
      · rw [hn] at hnews
        cases v <;> simp_all [chooseArticles2, asArray]
      · rw [hn] at hnews; rw [ha] at harts
        cases v <;> cases w <;> simp_all [chooseArticles2, asArray]
    rw [heq, hch]
    simp [isNullVal, mapWithIndex, mapIdxFrom]

/-- C6 witness: a nested `news` array is used when present; an object
without `news`/`articles` is wrapped as a one-element sequence. -/
theorem c6_object_postprocessing_witness :
    fetchNewsShape2 (fun _ => [])
      (some (JsonVal.obj [(chars "news", JsonVal.arr [JsonVal.obj []])])) [] =
      mapWithIndex (mkRec2 (fun _ => []) []) [JsonVal.obj []] ∧
    fetchNewsShape2 (fun _ => [])
      (some (JsonVal.obj [(chars "a", JsonVal.num (chars "1"))])) [] =
      [mkRec2 (fun _ => []) [] 0 (JsonVal.obj [(chars "a", JsonVal.num (chars "1"))])] :=
  ⟨(c6_object_postprocessing (fun _ => [])
      [(chars "news", JsonVal.arr [JsonVal.obj []])] []).1 [JsonVal.obj []] rfl rfl,
   (c6_object_postprocessing (fun _ => [])
      [(chars "a", JsonVal.num (chars "1"))] []).2.2 rfl rfl⟩

/-- C2 counterexample: the surrounding "prose" can itself make the whole
text parse directly (two quote characters turn the array into a JSON
string literal), in which case step 2 never runs and the result is the
string, not the embedded array — even though the prose contains no `[`
before the array and no `]` after it. -/
theorem c2_counterexample :
    extractJson1 (chars "\"[1]\"") = some (JsonVal.str (chars "[1]")) ∧
    JsonVal.str (chars "[1]") ≠ JsonVal.arr [JsonVal.num (chars "1")] :=
  ⟨rfl, fun h => JsonVal.noConfusion h⟩

/-- C2 (amended): when the cleaned text is left unchanged by
pre-cleaning, the direct parse fails, the prose before the array
contains no `[` and the prose after it no `]`, `extractJson` recovers
exactly the embedded array, by parsing the substring from the first `[`
to the last `]` inclusive. -/
theorem c2_array_recovery (pre mid post : Str) (xs : List JsonVal)
    (hclean : cleanText1 (pre ++ ('[' :: mid ++ [']']) ++ post) =
      pre ++ ('[' :: mid ++ [']']) ++ post)
    (hdirect : jsonParse (pre ++ ('[' :: mid ++ [']']) ++ post) = none)
    (hpre : '[' ∉ pre) (hpost : ']' ∉ post)
    (harr : jsonParse ('[' :: mid ++ [']']) = some (JsonVal.arr xs)) :
    extractJson1 (pre ++ ('[' :: mid ++ [']']) ++ post) = some (JsonVal.arr xs) := by
  set A : Str := '[' :: mid ++ [']'] with hA
  have hAlen : A.length = mid.length + 2 := by simp [hA]
  have hslen : (pre ++ A ++ post).length = pre.length + (mid.length + 2) + post.length := by
    simp [List.length_append, hAlen]
    omega
  have hne : pre ++ A ++ post ≠ [] := by
    intro h
    have := congrArg List.length h
    rw [hslen] at this
    simp at this
  have hfirst : indexOfChar '[' (pre ++ A ++ post) = some pre.length := by
    rw [List.append_assoc, indexOfChar_append (A ++ post) hpre]
    have : A ++ post = '[' :: (mid ++ [']'] ++ post) := by simp [hA]
    rw [this]
    simp [indexOfChar]
  have hlast : lastIndexOfChar ']' (pre ++ A ++ post) =
      some (pre.length + mid.length + 1) := by
    unfold lastIndexOfChar
    have hrev : (pre ++ A ++ post).reverse =
        post.reverse ++ (']' :: (mid.reverse ++ '[' :: pre.reverse)) := by
      simp [hA, List.reverse_append]
    rw [hrev, indexOfChar_append (']' :: (mid.reverse ++ '[' :: pre.reverse))
      (fun hc => hpost (List.mem_reverse.mp hc))]
    have h0 : indexOfChar ']' (']' :: (mid.reverse ++ '[' :: pre.reverse)) = some 0 := by
      simp [indexOfChar]
    rw [h0]
    have hrl : (List.reverse post).length = post.length := List.length_reverse post
    simp [hrl, hslen]
    omega
  have hsub : jsSubstring (pre ++ A ++ post) pre.length (pre.length + mid.length + 1 + 1)
      = A := by
    unfold jsSubstring
    have h1 : pre.length + mid.length + 1 + 1 = (pre ++ A).length := by
      simp [List.length_append, hAlen]
      omega
    rw [h1, List.take_left (pre ++ A) post]
    exact List.drop_left pre A
  have hw : widestPair '[' ']' (pre ++ A ++ post) = some (JsonVal.arr xs) := by
    unfold widestPair
    rw [hfirst, hlast]
    simp only
    rw [if_pos (by omega)]
    rw [hsub]
    exact harr
  unfold extractJson1
  rw [if_neg hne, hclean]
  unfold extractCore1
  rw [hdirect, hw]

/-- C2 witness: the spec's example input yields exactly the one-record
array with title "A". -/
theorem c2_array_recovery_witness :
    extractJson1 (chars "Here are the results: " ++
        ('[' :: chars "\x7b\"title\":\"A\",\"summary\":\"B\",\"category\":\"Tech\",\"publishedAt\":\"now\"\x7d" ++ [']']) ++
        chars " Thanks") =
      some (JsonVal.arr [JsonVal.obj
        [(chars "title", JsonVal.str (chars "A")),
         (chars "summary", JsonVal.str (chars "B")),
         (chars "category", JsonVal.str (chars "Tech")),
         (chars "publishedAt", JsonVal.str (chars "now"))]]) :=
  c2_array_recovery (chars "Here are the results: ")
    (chars "\x7b\"title\":\"A\",\"summary\":\"B\",\"category\":\"Tech\",\"publishedAt\":\"now\"\x7d")
    (chars " Thanks") _ (by rfl) (by rfl) (by decide) (by decide) (by rfl)

theorem dropWhile_dropWhile (p : Char → Bool) :
    ∀ l : Str, (l.dropWhile p).dropWhile p = l.dropWhile p := by
  intro l
  induction l with
  | nil => rfl
  | cons a r ih =>
    rcases hp : p a with _ | _
    · simp [List.dropWhile_cons, hp]
    · simp [List.dropWhile_cons, hp, ih]

theorem dropWhile_append_nil (p : Char → Bool) :
    ∀ (s u : Str), s.dropWhile p = [] → (s ++ u).dropWhile p = u.dropWhile p := by
  intro s
  induction s with
  | nil => intro u _; rfl
  | cons a r ih =>
    intro u h
    rcases hp : p a with _ | _
    · rw [List.dropWhile_cons, if_neg (by simp [hp])] at h
      cases h
    · rw [List.dropWhile_cons, if_pos (by simp [hp])] at h
      rw [List.cons_append, List.dropWhile_cons, if_pos (by simp [hp])]
      exact ih u h

theorem dropWhile_append_cons (p : Char → Bool) :
    ∀ (s u : Str) (d : Char) (R : Str), s.dropWhile p = d :: R →
      (s ++ u).dropWhile p = d :: (R ++ u) := by
  intro s
  induction s with
  | nil => intro u d R h; cases h
  | cons a r ih =>
    intro u d R h
    rcases hp : p a with _ | _
    · rw [List.dropWhile_cons, if_neg (by simp [hp])] at h
      cases h
      rw [List.cons_append, List.dropWhile_cons, if_neg (by simp [hp])]
    · rw [List.dropWhile_cons, if_pos (by simp [hp])] at h
      rw [List.cons_append, List.dropWhile_cons, if_pos (by simp [hp])]
      exact ih u d R h

theorem dropWhile_cons_eq_self (p : Char → Bool) (c : Char) (R : Str)
    (h : (c :: R).dropWhile p = c :: R) : p c = false := by
  rcases hp : p c with _ | _
  · rfl
  · rw [List.dropWhile_cons, if_pos (by simp [hp])] at h
    have hlen := congrArg List.length h
    have hle := (List.dropWhile_sublist (l := R) p).length_le
    simp at hlen
    omega

theorem trimRight_pref : ∀ l : Str, ∃ t, l = trimRight l ++ t := by
  intro l
  induction l with
  | nil => exact ⟨[], rfl⟩
  | cons c r ih =>
    rcases htr : trimRight r with _ | ⟨d, R⟩
    · rcases hw : isWs c with _ | _
      · exact ⟨r, by simp [trimRight, htr, hw]⟩
      · exact ⟨c :: r, by simp [trimRight, htr, hw]⟩
    · obtain ⟨t, ht⟩ := ih
      refine ⟨t, ?_⟩
      rw [show trimRight (c :: r) = c :: d :: R from by simp [trimRight, htr]]
      rw [htr] at ht
      simp [ht]

theorem trimRight_app_nonws (c : Char) (hc : isWs c = false) :
    ∀ s : Str, trimRight (s ++ [c]) = s ++ [c] := by
  intro s
  induction s with
  | nil => simp [trimRight, hc]
  | cons a s ih =>
    rw [List.cons_append]
    rcases hsc : s ++ [c] with _ | ⟨d, R⟩
    · cases s <;> cases hsc
    · have ih2 : trimRight (d :: R) = d :: R := hsc ▸ ih
      have step : trimRight (a :: d :: R) =
          match trimRight (d :: R) with
          | [] => if isWs a then [] else [a]
          | r' => a :: r' := rfl
      rw [step, ih2]

theorem trimRight_app_ws (c : Char) (hc : isWs c = true) :
    ∀ s : Str, trimRight (s ++ [c]) = trimRight s := by
  intro s
  induction s with
  | nil => simp [trimRight, hc]
  | cons a s ih =>
    rw [List.cons_append]
    simp only [trimRight]
    rw [ih]

theorem trimRight_idem : ∀ s : Str, trimRight (trimRight s) = trimRight s := by
  intro s
  induction s with
  | nil => rfl
  | cons c r ih =>
    rcases htr : trimRight r with _ | ⟨d, R⟩
    · rcases hw : isWs c with _ | _
      · simp [trimRight, htr, hw]
      · simp [trimRight, htr, hw]
    · rw [show trimRight (c :: r) = c :: d :: R from by simp [trimRight, htr]]
      have hdr : trimRight (d :: R) = d :: R := by
        rw [← htr, ih, htr]
      have step : trimRight (c :: d :: R) =
          match trimRight (d :: R) with
          | [] => if isWs c then [] else [c]
          | r' => c :: r' := rfl
      rw [step, hdr]

theorem trimRight_cons_shape (c : Char) (r : Str) :
    trimRight (c :: r) = [] ∨ ∃ u, trimRight (c :: r) = c :: u := by
  rcases htr : trimRight r with _ | ⟨d, R⟩
  · rcases hw : isWs c with _ | _
    · exact Or.inr ⟨[], by simp [trimRight, htr, hw]⟩
    · exact Or.inl (by simp [trimRight, htr, hw])
  · exact Or.inr ⟨d :: R, by simp [trimRight, htr]⟩

theorem trimWs_cons_ws (a : Char) (s : Str) (h : isWs a = true) :
    trimWs (a :: s) = trimWs s := by
  simp [trimWs, List.dropWhile_cons, h]

theorem trimWs_app_ws (c : Char) (s : Str) (hc : isWs c = true) :
    trimWs (s ++ [c]) = trimWs s := by
  unfold trimWs
  rcases hd : s.dropWhile isWs with _ | ⟨d, R⟩
  · rw [dropWhile_append_nil isWs s [c] hd]
    simp [List.dropWhile_cons, hc, trimRight]
  · rw [dropWhile_append_cons isWs s [c] d R hd]
    have : d :: (R ++ [c]) = (d :: R) ++ [c] := by simp
    rw [this, trimRight_app_ws c hc]

theorem trimWs_idem (s : Str) : trimWs (trimWs s) = trimWs s := by
  unfold trimWs
  have hdd : (List.dropWhile isWs (trimRight (s.dropWhile isWs))) =
      trimRight (s.dropWhile isWs) := by
    rcases hQ : s.dropWhile isWs with _ | ⟨c, R⟩
    · rfl
    · have hc : isWs c = false := by
        apply dropWhile_cons_eq_self isWs c R
        rw [← hQ]
        exact dropWhile_dropWhile isWs s
      rcases trimRight_cons_shape c R with h | ⟨u, hu⟩
      · rw [h]; rfl
      · rw [hu, List.dropWhile_cons, if_neg (by simp [hc])]
  rw [hdd, trimRight_idem]

theorem fenceHead_ttt (u : Str) : fenceHead (tick :: tick :: tick :: u) = true := rfl

theorem fenceHead_single (c : Char) : fenceHead [c] = false := by
  unfold fenceHead
  apply decide_eq_false
  simp

theorem fenceHead_pair (c d : Char) : fenceHead [c, d] = false := by
  unfold fenceHead
  apply decide_eq_false
  simp

theorem fenceHead_false_of_head {c : Char} (hc : c ≠ tick) (u : Str) :
    fenceHead (c :: u) = false := by
  unfold fenceHead
  apply decide_eq_false
  intro h
  have h2 : c :: u.take 2 = [tick, tick, tick] := h
  exact hc (by injection h2)

theorem fenceHead_true_elim {s : Str} (h : fenceHead s = true) :
    ∃ u, s = tick :: tick :: tick :: u := by
  unfold fenceHead at h
  rw [decide_eq_true_eq] at h
  match s, h with
  | a :: b :: c :: u, h =>
    have h3 : a :: b :: c :: ([] : Str) = [tick, tick, tick] := h
    injection h3 with h4 h5
    injection h5 with h6 h7
    injection h7 with h8 _
    exact ⟨u, by rw [h4, h6, h8]⟩

theorem hasFence_parts {c : Char} {r : Str} (h : hasFence (c :: r) = false) :
    fenceHead (c :: r) = false ∧ hasFence r = false := by
  simpa [hasFence] using h

theorem hasFence_dropWhile (p : Char → Bool) :
    ∀ l : Str, hasFence l = false → hasFence (l.dropWhile p) = false := by
  intro l
  induction l with
  | nil => intro _; rfl
  | cons a r ih =>
    intro h
    rcases hp : p a with _ | _
    · rw [List.dropWhile_cons, if_neg (by simp [hp])]
      exact h
    · rw [List.dropWhile_cons, if_pos (by simp [hp])]
      exact ih (hasFence_parts h).2

theorem hasFence_trimRight : ∀ l : Str, hasFence l = false →
    hasFence (trimRight l) = false := by
  intro l
  induction l with
  | nil => intro _; rfl
  | cons c r ih =>
    intro h
    have hparts := hasFence_parts h
    rcases htr : trimRight r with _ | ⟨d, R⟩
    · rcases hw : isWs c with _ | _
      · simp [trimRight, htr, hw, hasFence, fenceHead_single]
      · simp [trimRight, htr, hw, hasFence]
    · rw [show trimRight (c :: r) = c :: d :: R from by simp [trimRight, htr]]
      have hrest : hasFence (d :: R) = false := htr ▸ ih hparts.2
      have hfh : fenceHead (c :: d :: R) = false := by
        rcases hq : fenceHead (c :: d :: R) with _ | _
        · rfl
        · exfalso
          obtain ⟨u, hu⟩ := fenceHead_true_elim hq
          injection hu with hc1 hu2
          injection hu2 with hd1 hu3
          obtain ⟨t2, ht2⟩ := trimRight_pref r
          rw [htr] at ht2
          have hcr : fenceHead (c :: r) = true := by
            unfold fenceHead
            rw [decide_eq_true_eq, ht2, hu3]
            show c :: d :: tick :: ((u ++ t2).take 0) = [tick, tick, tick]
            rw [hc1, hd1]
            rfl
          rw [hparts.1] at hcr
          cases hcr
      rw [show hasFence (c :: d :: R) = (fenceHead (c :: d :: R) || hasFence (d :: R)) from rfl,
        hfh, hrest]
      rfl

theorem hasFence_trimWs (s : Str) (h : hasFence s = false) :
    hasFence (trimWs s) = false :=
  hasFence_trimRight _ (hasFence_dropWhile isWs s h)

theorem fenceCapture_none : ∀ l : Str, hasFence l = false → fenceCapture l = none := by
  intro l
  induction l with
  | nil => intro _; rfl
  | cons c r ih =>
    intro h
    have hparts := hasFence_parts h
    simp only [fenceCapture, hparts.1]
    simp only [Bool.false_eq_true, if_false]
    exact ih hparts.2

theorem hasFence_append_nontick {c : Char} (hc : c ≠ tick) :
    ∀ (l1 l2 : Str), hasFence l1 = false → hasFence l2 = false →
    hasFence (l1 ++ c :: l2) = false := by
  intro l1
  induction l1 with
  | nil =>
    intro l2 _ h2
    simp [hasFence, fenceHead_false_of_head hc, h2]
  | cons a l1 ih =>
    intro l2 h1 h2
    have hparts := hasFence_parts h1
    rw [List.cons_append]
    have hfh : fenceHead (a :: (l1 ++ c :: l2)) = false := by
      rcases hq : fenceHead (a :: (l1 ++ c :: l2)) with _ | _
      · rfl
      · exfalso
        obtain ⟨u, hu⟩ := fenceHead_true_elim hq
        injection hu with ha htl
        match l1, hparts, htl with
        | [], hparts, htl =>
          rw [List.nil_append] at htl
          injection htl with hc1 _
          exact hc hc1
        | [x], hparts, htl =>
          have htl2 : x :: c :: l2 = tick :: tick :: u := htl
          injection htl2 with hx htl3
          injection htl3 with hc2 _
          exact hc hc2
        | x :: y :: r, hparts, htl =>
          have htl2 : x :: y :: (r ++ c :: l2) = tick :: tick :: u := htl
          injection htl2 with hx htl3
          injection htl3 with hy _
          have hf : fenceHead (a :: x :: y :: r) = true := by
            unfold fenceHead
            rw [decide_eq_true_eq]
            show a :: x :: y :: (r.take 0) = [tick, tick, tick]
            rw [ha, hx, hy]
            rfl
          rw [hparts.1] at hf
          cases hf
    rw [show hasFence (a :: (l1 ++ c :: l2)) =
        (fenceHead (a :: (l1 ++ c :: l2)) || hasFence (l1 ++ c :: l2)) from rfl,
      hfh, ih l2 hparts.2 h2]
    rfl

theorem take2_bridge (xs ys : Str)
    (h : (xs ++ tick :: tick :: tick :: ys).take 2 = [tick, tick]) :
    (xs ++ [tick, tick]).take 2 = [tick, tick] := by
  match xs with
  | [] => rfl
  | [x] => exact h
  | x :: y :: r => exact h

theorem findClose_exact (ys : Str) : ∀ xs : Str, hasFence (xs ++ [tick, tick]) = false →
    findClose (xs ++ tick :: tick :: tick :: ys) = some xs := by
  intro xs
  induction xs with
  | nil =>
    intro _
    show findClose (tick :: tick :: tick :: ys) = some []
    simp only [findClose, fenceHead_ttt, if_true]
  | cons a xs ih =>
    intro h
    rw [List.cons_append] at h
    have hparts := hasFence_parts h
    have hfh : fenceHead (a :: (xs ++ tick :: tick :: tick :: ys)) = false := by
      rcases hq : fenceHead (a :: (xs ++ tick :: tick :: tick :: ys)) with _ | _
      · rfl
      · exfalso
        obtain ⟨u, hu⟩ := fenceHead_true_elim hq
        injection hu with ha htl
        have htk2 : (xs ++ tick :: tick :: tick :: ys).take 2 = [tick, tick] := by
          rw [htl]; rfl
        have hbr := take2_bridge xs ys htk2
        have hf : fenceHead (a :: (xs ++ [tick, tick])) = true := by
          unfold fenceHead
          rw [decide_eq_true_eq]
          have hstep : (a :: (xs ++ [tick, tick])).take 3 =
              a :: (xs ++ [tick, tick]).take 2 := rfl
          rw [hstep, ha, hbr]
        rw [hparts.1] at hf
        cases hf
    rw [List.cons_append,
      show findClose (a :: (xs ++ tick :: tick :: tick :: ys)) =
        if fenceHead (a :: (xs ++ tick :: tick :: tick :: ys)) then some []
        else (findClose (xs ++ tick :: tick :: tick :: ys)).map (a :: ·) from rfl,
      if_neg (by simp [hfh]), ih hparts.2]
    rfl

theorem hasFence_region (payload : Str) (h1 : hasFence payload = false) :
    hasFence (('\n' :: (payload ++ ['\n'])) ++ [tick, tick]) = false := by
  have hsplit : ('\n' :: (payload ++ ['\n'])) ++ [tick, tick] =
      ('\n' :: payload) ++ '\n' :: [tick, tick] := by simp
  rw [hsplit]
  apply hasFence_append_nontick (by decide)
  · rw [show hasFence ('\n' :: payload) =
        (fenceHead ('\n' :: payload) || hasFence payload) from rfl,
      fenceHead_false_of_head (by decide) payload, h1]
    rfl
  · decide

theorem findClose_region (payload : Str) (h1 : hasFence payload = false) :
    findClose ('\n' :: (payload ++ '\n' :: tick :: tick :: tick :: [])) =
      some ('\n' :: (payload ++ ['\n'])) := by
  have hres : '\n' :: (payload ++ '\n' :: tick :: tick :: tick :: []) =
      ('\n' :: (payload ++ ['\n'])) ++ tick :: tick :: tick :: [] := by simp
  rw [hres]
  exact findClose_exact [] _ (hasFence_region payload h1)

theorem fenceCapture_wrapTag (payload : Str) (h1 : hasFence payload = false) :
    fenceCapture (tick :: tick :: tick :: 'j' :: 's' :: 'o' :: 'n' :: '\n' ::
      (payload ++ '\n' :: tick :: tick :: tick :: [])) = some (trimWs payload) := by
  have hmain : fenceCapture (tick :: tick :: tick :: 'j' :: 's' :: 'o' :: 'n' :: '\n' ::
      (payload ++ '\n' :: tick :: tick :: tick :: [])) =
      (match findClose ('\n' :: (payload ++ '\n' :: tick :: tick :: tick :: [])) with
       | some region => some (trimWs region)
       | none => fenceCapture (tick :: tick :: 'j' :: 's' :: 'o' :: 'n' :: '\n' ::
          (payload ++ '\n' :: tick :: tick :: tick :: []))) := rfl
  rw [hmain, findClose_region payload h1]
  show some (trimWs ('\n' :: (payload ++ ['\n']))) = some (trimWs payload)
  rw [trimWs_cons_ws '\n' _ (by decide), trimWs_app_ws '\n' payload (by decide)]

theorem fenceCapture_wrapPlain (payload : Str) (h1 : hasFence payload = false) :
    fenceCapture (tick :: tick :: tick :: '\n' ::
      (payload ++ '\n' :: tick :: tick :: tick :: [])) = some (trimWs payload) := by
  have hmain : fenceCapture (tick :: tick :: tick :: '\n' ::
      (payload ++ '\n' :: tick :: tick :: tick :: [])) =
      (match findClose ('\n' :: (payload ++ '\n' :: tick :: tick :: tick :: [])) with
       | some region => some (trimWs region)
       | none => fenceCapture (tick :: tick :: '\n' ::
          (payload ++ '\n' :: tick :: tick :: tick :: []))) := rfl
  rw [hmain, findClose_region payload h1]
  show some (trimWs ('\n' :: (payload ++ ['\n']))) = some (trimWs payload)
  rw [trimWs_cons_ws '\n' _ (by decide), trimWs_app_ws '\n' payload (by decide)]

theorem cleanText1_eq (s : Str) : cleanText1 s =
    (match fenceCapture (trimWs s) with
     | some cap => if cap = [] then jsonTagStrip (trimWs s) else trimWs cap
     | none => jsonTagStrip (trimWs s)) := rfl

theorem trimWs_wrapTag (payload : Str) :
    trimWs (tick :: tick :: tick :: 'j' :: 's' :: 'o' :: 'n' :: '\n' ::
      (payload ++ '\n' :: tick :: tick :: tick :: [])) =
    tick :: tick :: tick :: 'j' :: 's' :: 'o' :: 'n' :: '\n' ::
      (payload ++ '\n' :: tick :: tick :: tick :: []) := by
  unfold trimWs
  have htk : isWs tick = false := by decide
  rw [List.dropWhile_cons, if_neg (by simp [htk])]
  have hsplit : tick :: tick :: tick :: 'j' :: 's' :: 'o' :: 'n' :: '\n' ::
      (payload ++ '\n' :: tick :: tick :: tick :: []) =
      (tick :: tick :: tick :: 'j' :: 's' :: 'o' :: 'n' :: '\n' ::
        (payload ++ '\n' :: tick :: tick :: [])) ++ [tick] := by simp
  rw [hsplit, trimRight_app_nonws tick htk]

theorem trimWs_wrapPlain (payload : Str) :
    trimWs (tick :: tick :: tick :: '\n' ::
      (payload ++ '\n' :: tick :: tick :: tick :: [])) =
    tick :: tick :: tick :: '\n' ::
      (payload ++ '\n' :: tick :: tick :: tick :: []) := by
  unfold trimWs
  have htk : isWs tick = false := by decide
  rw [List.dropWhile_cons, if_neg (by simp [htk])]
  have hsplit : tick :: tick :: tick :: '\n' ::
      (payload ++ '\n' :: tick :: tick :: tick :: []) =
      (tick :: tick :: tick :: '\n' ::
        (payload ++ '\n' :: tick :: tick :: [])) ++ [tick] := by simp
  rw [hsplit, trimRight_app_nonws tick htk]

theorem parseValue_tick (u : Str) (fuel : Nat) : parseValue fuel (tick :: u) = none := by
  cases fuel with
  | zero => rfl
  | succ n => rfl

theorem jsonParse_tick (u : Str) : jsonParse (tick :: u) = none := by
  unfold jsonParse
  rw [parseValue_tick u ((tick :: u).length + 1)]

theorem jsonTagHeadCI_tick (u : Str) : jsonTagHeadCI (tick :: u) = false := rfl

theorem jsonTagStrip_tick (u : Str) : jsonTagStrip (tick :: u) = tick :: u := by
  unfold jsonTagStrip
  rw [jsonTagHeadCI_tick]
  rfl

theorem indexOfChar_cons_ne {a c : Char} (h : a ≠ c) (l : Str) :
    indexOfChar c (a :: l) = (indexOfChar c l).map (· + 1) := by
  rw [show indexOfChar c (a :: l) =
      (if a = c then some 0 else (indexOfChar c l).map (· + 1)) from rfl, if_neg h]

theorem trimRight_nil_all_ws : ∀ l : Str, trimRight l = [] → ∀ c ∈ l, isWs c = true := by
  intro l
  induction l with
  | nil => intro _ c hc; cases hc
  | cons a r ih =>
    intro h c hc
    rcases htr : trimRight r with _ | ⟨d, R⟩
    · rcases hw : isWs a with _ | _
      · rw [show trimRight (a :: r) = [a] from by simp [trimRight, htr, hw]] at h
        cases h
      · rcases hc with _ | ⟨_, hc⟩
        · exact hw
        · exact ih htr c hc
    · rw [show trimRight (a :: r) = a :: d :: R from by simp [trimRight, htr]] at h
      cases h

theorem all_ws_of_trimWs_nil : ∀ l : Str, trimWs l = [] → ∀ c ∈ l, isWs c = true := by
  intro l
  induction l with
  | nil => intro _ c hc; cases hc
  | cons a r ih =>
    intro h c hc
    rcases hw : isWs a with _ | _
    · exfalso
      unfold trimWs at h
      rw [List.dropWhile_cons, if_neg (by simp [hw])] at h
      have := trimRight_nil_all_ws _ h a (List.mem_cons_self a r)
      rw [hw] at this
      cases this
    · have h' : trimWs r = [] := by
        unfold trimWs at h ⊢
        rw [List.dropWhile_cons, if_pos (by simp [hw])] at h
        exact h
      rcases hc with _ | ⟨_, hc⟩
      · exact hw
      · exact ih h' c hc

theorem extractCore1_no_structure (s : Str)
    (hp : jsonParse s = none)
    (hbr : indexOfChar '[' s = none)
    (hob : indexOfChar '{' s = none) :
    extractCore1 s = none := by
  have hw : widestPair '[' ']' s = none := by
    unfold widestPair
    rw [hbr]
  have hs : seqExtract s = [] := by
    unfold seqExtract
    rw [hob]
  unfold extractCore1
  rw [hp, hw, hs]

theorem extractCore1_wrapTag_ws (payload : Str)
    (hall : ∀ c ∈ payload, isWs c = true) :
    extractCore1 (tick :: tick :: tick :: 'j' :: 's' :: 'o' :: 'n' :: '\n' ::
      (payload ++ '\n' :: tick :: tick :: tick :: [])) = none := by
  have hnb : '[' ∉ payload := fun hm => absurd (hall _ hm) (by decide)
  have hno : '{' ∉ payload := fun hm => absurd (hall _ hm) (by decide)
  apply extractCore1_no_structure
  · exact jsonParse_tick _
  · rw [indexOfChar_cons_ne (by decide : tick ≠ '['),
      indexOfChar_cons_ne (by decide : tick ≠ '['),
      indexOfChar_cons_ne (by decide : tick ≠ '['),
      indexOfChar_cons_ne (by decide : ('j' : Char) ≠ '['),
      indexOfChar_cons_ne (by decide : ('s' : Char) ≠ '['),
      indexOfChar_cons_ne (by decide : ('o' : Char) ≠ '['),
      indexOfChar_cons_ne (by decide : ('n' : Char) ≠ '['),
      indexOfChar_cons_ne (by decide : ('\n' : Char) ≠ '['),
      indexOfChar_append _ hnb]
    rfl
  · rw [indexOfChar_cons_ne (by decide : tick ≠ '{'),
      indexOfChar_cons_ne (by decide : tick ≠ '{'),
      indexOfChar_cons_ne (by decide : tick ≠ '{'),
      indexOfChar_cons_ne (by decide : ('j' : Char) ≠ '{'),
      indexOfChar_cons_ne (by decide : ('s' : Char) ≠ '{'),
      indexOfChar_cons_ne (by decide : ('o' : Char) ≠ '{'),
      indexOfChar_cons_ne (by decide : ('n' : Char) ≠ '{'),
      indexOfChar_cons_ne (by decide : ('\n' : Char) ≠ '{'),
      indexOfChar_append _ hno]
    rfl

theorem extractCore1_wrapPlain_ws (payload : Str)
    (hall : ∀ c ∈ payload, isWs c = true) :
    extractCore1 (tick :: tick :: tick :: '\n' ::
      (payload ++ '\n' :: tick :: tick :: tick :: [])) = none := by
  have hnb : '[' ∉ payload := fun hm => absurd (hall _ hm) (by decide)
  have hno : '{' ∉ payload := fun hm => absurd (hall _ hm) (by decide)
  apply extractCore1_no_structure
  · exact jsonParse_tick _
  · rw [indexOfChar_cons_ne (by decide : tick ≠ '['),
      indexOfChar_cons_ne (by decide : tick ≠ '['),
      indexOfChar_cons_ne (by decide : tick ≠ '['),
      indexOfChar_cons_ne (by decide : ('\n' : Char) ≠ '['),
      indexOfChar_append _ hnb]
    rfl
  · rw [indexOfChar_cons_ne (by decide : tick ≠ '{'),
      indexOfChar_cons_ne (by decide : tick ≠ '{'),
      indexOfChar_cons_ne (by decide : tick ≠ '{'),
      indexOfChar_cons_ne (by decide : ('\n' : Char) ≠ '{'),
      indexOfChar_append _ hno]
    rfl

theorem cleanText1_of_capture {s cap : Str} (h : fenceCapture (trimWs s) = some cap) :
    cleanText1 s = if cap = [] then jsonTagStrip (trimWs s) else trimWs cap := by
  rw [cleanText1_eq, h]

theorem cleanText1_of_nofence {s : Str} (h : fenceCapture (trimWs s) = none) :
    cleanText1 s = jsonTagStrip (trimWs s) := by
  rw [cleanText1_eq, h]


/-- C7 counterexample: wrapping a payload in a fence changes the result.
For payload `json {}` the bare input is stripped of the leading `json`
tag and parses directly to the object, while the fenced input keeps the
tag in its capture (the tag strip runs only when no fence matched),
fails the direct parse and falls through to sequential brace extraction,
which returns an array around the object. -/
theorem c7_counterexample :
    extractJson1 (chars "```\njson \x7b\x7d\n```") = some (JsonVal.arr [JsonVal.obj []]) ∧
    extractJson1 (chars "json \x7b\x7d") = some (JsonVal.obj []) ∧
    JsonVal.arr [JsonVal.obj []] ≠ JsonVal.obj [] :=
  ⟨rfl, rfl, fun h => JsonVal.noConfusion h⟩

/-- C7 (amended): for every payload that contains no fence delimiter
(three consecutive backticks) and whose trimmed form does not start with
the bare `json` language tag, `extractJson` applied to the fenced input
(with or without a language tag, delimiters on their own lines) produces
the same result as `extractJson` applied to the bare payload. -/
theorem c7_fence_equivalence (payload : Str)
    (h1 : hasFence payload = false)
    (h2 : jsonTagHeadCI (trimWs payload) = false) :
    extractJson1 (chars "```json\n" ++ payload ++ chars "\n```") = extractJson1 payload ∧
    extractJson1 (chars "```\n" ++ payload ++ chars "\n```") = extractJson1 payload := by
  have hbare : extractJson1 payload = extractCore1 (trimWs payload) := by
    by_cases hp : payload = []
    · subst hp; rfl
    · unfold extractJson1
      rw [if_neg hp,
        cleanText1_of_nofence (fenceCapture_none _ (hasFence_trimWs payload h1))]
      unfold jsonTagStrip
      rw [if_neg (by simp [h2])]
  have hW1 : chars "```json\n" ++ payload ++ chars "\n```" =
      tick :: tick :: tick :: 'j' :: 's' :: 'o' :: 'n' :: '\n' ::
        (payload ++ '\n' :: tick :: tick :: tick :: []) := by
    rw [List.append_assoc]
    rfl
  have hW2 : chars "```\n" ++ payload ++ chars "\n```" =
      tick :: tick :: tick :: '\n' ::
        (payload ++ '\n' :: tick :: tick :: tick :: []) := by
    rw [List.append_assoc]
    rfl
  have hc1 : cleanText1 (tick :: tick :: tick :: 'j' :: 's' :: 'o' :: 'n' :: '\n' ::
      (payload ++ '\n' :: tick :: tick :: tick :: [])) =
      (if trimWs payload = [] then
        jsonTagStrip (tick :: tick :: tick :: 'j' :: 's' :: 'o' :: 'n' :: '\n' ::
          (payload ++ '\n' :: tick :: tick :: tick :: []))
       else trimWs (trimWs payload)) := by
    rw [cleanText1_of_capture
        (by rw [trimWs_wrapTag]; exact fenceCapture_wrapTag payload h1),
      trimWs_wrapTag]
  have hc2 : cleanText1 (tick :: tick :: tick :: '\n' ::
      (payload ++ '\n' :: tick :: tick :: tick :: [])) =
      (if trimWs payload = [] then
        jsonTagStrip (tick :: tick :: tick :: '\n' ::
          (payload ++ '\n' :: tick :: tick :: tick :: []))
       else trimWs (trimWs payload)) := by
    rw [cleanText1_of_capture
        (by rw [trimWs_wrapPlain]; exact fenceCapture_wrapPlain payload h1),
      trimWs_wrapPlain]
  by_cases hcap : trimWs payload = []
  · have hall := all_ws_of_trimWs_nil payload hcap
    have hres : extractJson1 payload = none := by
      rw [hbare, hcap]
      rfl
    constructor
    · rw [hW1, hres]
      unfold extractJson1
      rw [if_neg (by simp), hc1, if_pos hcap, jsonTagStrip_tick]
      exact extractCore1_wrapTag_ws payload hall
    · rw [hW2, hres]
      unfold extractJson1
      rw [if_neg (by simp), hc2, if_pos hcap, jsonTagStrip_tick]
      exact extractCore1_wrapPlain_ws payload hall
  · constructor
    · have hL : extractJson1 (tick :: tick :: tick :: 'j' :: 's' :: 'o' :: 'n' :: '\n' ::
          (payload ++ '\n' :: tick :: tick :: tick :: [])) =
          extractCore1 (trimWs payload) := by
        unfold extractJson1
        rw [if_neg (by simp), hc1, if_neg hcap, trimWs_idem]
      rw [hW1, hL, hbare]
    · have hL : extractJson1 (tick :: tick :: tick :: '\n' ::
          (payload ++ '\n' :: tick :: tick :: tick :: [])) =
          extractCore1 (trimWs payload) := by
        unfold extractJson1
        rw [if_neg (by simp), hc2, if_neg hcap, trimWs_idem]
      rw [hW2, hL, hbare]

/-- C7 witness: fencing the payload `[1]` (with or without the language
tag) yields the same extraction result as the bare payload. -/
theorem c7_fence_equivalence_witness :
    extractJson1 (chars "```json\n" ++ chars "[1]" ++ chars "\n```") =
      extractJson1 (chars "[1]") ∧
    extractJson1 (chars "```\n" ++ chars "[1]" ++ chars "\n```") =
      extractJson1 (chars "[1]") :=
  c7_fence_equivalence (chars "[1]") (by decide) (by decide)
